import Mathlib

/-!
Verification development for `noise_leq_directory.py`: a pipeline that parses
1-second sound-level samples from logger files, partitions them into
sequential 900-second blocks anchored at the first observed timestamp, and
computes the energy-averaged level (Leq) per block.

Shallow embedding conventions:
* timestamps (`datetime` at second resolution) are modelled as integers
  counting seconds; `timedelta(seconds = n)` becomes integer addition;
* the partitioner and parser are polymorphic in the level type (the Python
  code treats levels opaquely there);
* Python floats in the aggregator are modelled by `FVal`, an exact-real
  carrier extended with the IEEE special values `+inf`, `-inf`, `nan`
  (finite-precision rounding/underflow is not modelled: arithmetic on
  finite values is exact);
* `datetime.strptime` and `float` are Python standard-library collaborators;
  they are passed as parameters (`parseTs`, `parseLevel`) to the parser;
* diagnostics printed to stderr are modelled by the `Diag` marker type
  (their message text and line numbers are not modelled);
* the generator-based stream processing is modelled by total functions on
  lists; the unbounded `while ts >= block_end` loop of `groups_of_seconds`
  is implemented with an explicit iteration bound (`fuel`) which is always
  instantiated with a sufficient value, keeping the definition executable.
-/

namespace NoiseLeq

/-- `SECONDS_PER_BLOCK = 15 * 60  # 900 s → "Leq15"`. -/
def SECONDS_PER_BLOCK : ℤ := 15 * 60

/-- A `(ts, level, unit)` sample as yielded by `parse_file_samples`. -/
structure Sample (α : Type) where
  ts : ℤ
  level : α
  unit : String
deriving DecidableEq, Repr

/-- A `(start_dt, end_dt, levels_list, block_unit)` tuple as yielded by
`groups_of_seconds`.  The Python field `end` is called `stop` here because
`end` is a Lean keyword. -/
structure Block (α : Type) where
  start : ℤ
  stop : ℤ
  levels : List α
  unit : String
deriving DecidableEq, Repr

/-- The `while ts >= block_end_dt` loop body of `groups_of_seconds`
(lines 113–118): repeatedly close the current window — emitting a block if
it collected any levels — and advance the window by `SECONDS_PER_BLOCK`.
`fuel` is an explicit bound on the number of iterations; callers pass
`(ts + 1 - bEnd).toNat`, which is always sufficient, so the `fuel = 0`
branch is never the reason the loop stops.  Returns the emitted blocks and
the final `(current_start_dt, block_end_dt, levels)` state. -/
def closeWindows {α : Type} : ℕ → ℤ → ℤ → ℤ → List α → String →
    List (Block α) × ℤ × ℤ × List α
  | 0, _, start, bEnd, levels, _ => ([], start, bEnd, levels)
  | fuel + 1, ts, start, bEnd, levels, u =>
    if bEnd ≤ ts then
      let r := closeWindows fuel ts bEnd (bEnd + SECONDS_PER_BLOCK) [] u
      ((if levels.isEmpty then [] else [⟨start, bEnd, levels, u⟩]) ++ r.1, r.2)
    else ([], start, bEnd, levels)

/-- The per-sample loop of `groups_of_seconds` after the first sample fixed
the state: for each sample run the window-closing loop, then append the
sample's level to the current collection; at end of input flush the
leftover levels as a final block ending at `start + len(levels)`
(lines 106–123). -/
def groupsAux {α : Type} : List (Sample α) → ℤ → ℤ → List α → String →
    List (Block α)
  | [], start, _, levels, u =>
    if levels.isEmpty then [] else [⟨start, start + levels.length, levels, u⟩]
  | s :: rest, start, bEnd, levels, u =>
    let r := closeWindows (s.ts + 1 - bEnd).toNat s.ts start bEnd levels u
    r.1 ++ groupsAux rest r.2.1 r.2.2.1 (r.2.2.2 ++ [s.level]) u

/-- `groups_of_seconds` (lines 97–123): the first sample anchors
`current_start_dt = ts₁`, `block_end_dt = ts₁ + SECONDS_PER_BLOCK` and pins
the block unit; then the stream is folded by `groupsAux`.  An empty stream
yields no blocks. -/
def groups_of_seconds {α : Type} : List (Sample α) → List (Block α)
  | [] => []
  | s :: rest => groupsAux rest s.ts (s.ts + SECONDS_PER_BLOCK) [s.level] s.unit

/-! ### The Leq aggregator (`leq`, lines 126–137)

Python float values are modelled by `FVal`: an exact real, `+inf`, `-inf`,
or `nan`.  Exponentiation of a finite value never overflows here, so the
`except OverflowError: return inf` branch of the source has no reachable
counterpart; an input of `+inf` (whose exponential is `+inf` without
raising) flows through the sum to a `+inf` result exactly as in Python. -/

/-- Model of a Python float: exact real, `inf`, `-inf`, or `nan`. -/
inductive FVal : Type
  | fin : ℝ → FVal
  | posinf : FVal
  | neginf : FVal
  | nan : FVal

/-- Discriminator for `L == float("-inf")` (line 133). -/
def FVal.isNegInf : FVal → Bool
  | .neginf => true
  | _ => false

/-- IEEE addition on the float model: `nan` propagates, opposite infinities
give `nan`, an infinity otherwise absorbs, finite values add exactly. -/
def fadd : FVal → FVal → FVal
  | .nan, _ => .nan
  | _, .nan => .nan
  | .posinf, .neginf => .nan
  | .neginf, .posinf => .nan
  | .posinf, _ => .posinf
  | _, .posinf => .posinf
  | .neginf, _ => .neginf
  | _, .neginf => .neginf
  | .fin a, .fin b => .fin (a + b)

/-- `10 ** (L / 10.0)` (line 131): exact `rpow` on finite levels (no
overflow or underflow in the exact model), `10 ** -inf = 0.0`,
`10 ** inf = inf`, `nan` propagates. -/
noncomputable def fexp10 : FVal → FVal
  | .fin x => .fin ((10 : ℝ) ^ (x / 10))
  | .posinf => .posinf
  | .neginf => .fin 0
  | .nan => .nan

/-- Python's `sum(...)`: left fold of `+` starting from `0`. -/
noncomputable def fsum (xs : List FVal) : FVal := xs.foldl fadd (.fin 0)

/-- `10.0 * math.log10(linear_sum / n)` (lines 134–135).  `math.log10` of a
non-positive finite argument would raise in Python; that case is
unreachable from `leq` (the summands are non-negative and the zero sum is
handled before), and here it falls into the junk value `logb` assigns. -/
noncomputable def flog10mean : FVal → ℕ → FVal
  | .fin s, n => .fin (10 * Real.logb 10 (s / n))
  | .posinf, _ => .posinf
  | .neginf, _ => .nan
  | .nan, _ => .nan

open Classical in
/-- `leq` (lines 126–137): empty input → `nan`; otherwise sum the linear
energies; a sum of exactly zero → `-inf` if some input level was `-inf`,
else `nan`; otherwise `10·log10` of the mean energy. -/
noncomputable def leq (levels : List FVal) : FVal :=
  match levels with
  | [] => FVal.nan
  | _ :: _ =>
    let linear_sum := fsum (levels.map fexp10)
    if linear_sum = FVal.fin 0 then
      if levels.any FVal.isNegInf then FVal.neginf else FVal.nan
    else flog10mean linear_sum levels.length

/-! ### The sample parser (`parse_file_samples`, lines 46–94) -/

/-- Marker for each warning `parse_file_samples` can print to stderr. -/
inductive Diag : Type
  | malformedRow
  | invalidData
  | unitMismatch
  | noDataAfterHeader
  | noHeaderNoData
deriving DecidableEq, Repr

/-- The parser's loop state: `file_specific_unit` and `header_seen`. -/
structure ParseState where
  pinned : Option String
  headerSeen : Bool
deriving DecidableEq, Repr

/-- Python's `str.strip()`: drop leading and trailing whitespace.  Defined
on the character list so that it evaluates inside the kernel. -/
def pstrip (s : String) : String :=
  ⟨((s.data.dropWhile Char.isWhitespace).reverse.dropWhile
      Char.isWhitespace).reverse⟩

/-- Python's substring test `"STANDARD" in c`, on the character list. -/
def hasMarker : List Char → Bool
  | [] => false
  | c :: rest => ("STANDARD".data.isPrefixOf (c :: rest)) || hasMarker rest

/-- `not header_seen and row and "STANDARD" in row[0]` (line 59): the row is
non-empty and its first field contains the marker substring. -/
def isHeaderRow (row : List String) : Bool :=
  match row with
  | [] => false
  | c :: _ => hasMarker c.data

/-- One iteration of the row loop of `parse_file_samples` (lines 58–84):
recognize an optional header, skip short rows (warning unless entirely
blank), parse date/time and level via the standard library (here the
parameters `parseTs`, `parseLevel`; `none` models the `ValueError` path),
pin the unit on the first success, and skip later rows whose unit differs
from the pinned one.  Returns the new state, yielded samples, diagnostics. -/
def parseRow {α : Type} (parseTs : String → String → Option ℤ)
    (parseLevel : String → Option α) (st : ParseState) (row : List String) :
    ParseState × List (Sample α) × List Diag :=
  if !st.headerSeen && isHeaderRow row then
    ({ st with headerSeen := true }, [], [])
  else if row.length < 4 then
    (st, [], if row.any (fun s => pstrip s != "") then [Diag.malformedRow] else [])
  else
    match row with
    | d :: t :: l :: un :: _ =>
      match parseTs (pstrip d) (pstrip t), parseLevel (pstrip l) with
      | some ts, some lvl =>
        match st.pinned with
        | none =>
          ({ st with pinned := some (pstrip un) }, [⟨ts, lvl, pstrip un⟩], [])
        | some pu =>
          if pstrip un = pu then (st, [⟨ts, lvl, pu⟩], [])
          else (st, [], [Diag.unitMismatch])
      | _, _ => (st, [], [Diag.invalidData])
    | _ => (st, [], [])

/-- Fold `parseRow` over all rows of a source. -/
def parseRows {α : Type} (parseTs : String → String → Option ℤ)
    (parseLevel : String → Option α) :
    ParseState → List (List String) → ParseState × List (Sample α) × List Diag
  | st, [] => (st, [], [])
  | st, row :: rest =>
    let r := parseRow parseTs parseLevel st row
    let rr := parseRows parseTs parseLevel r.1 rest
    (rr.1, r.2.1 ++ rr.2.1, r.2.2 ++ rr.2.2)

/-- `parse_file_samples` (lines 46–94) on one already-read source: run the
row loop from the initial state, then emit the end-of-file diagnostics of
lines 86–89 (`no valid data after header` / `no header or valid data`). -/
def parse_file_samples {α : Type} (parseTs : String → String → Option ℤ)
    (parseLevel : String → Option α) (rows : List (List String)) :
    List (Sample α) × List Diag :=
  let r := parseRows parseTs parseLevel ⟨none, false⟩ rows
  let finalDiags :=
    if r.1.pinned = none ∧ r.1.headerSeen = true then [Diag.noDataAfterHeader]
    else if r.1.headerSeen = false ∧ r.1.pinned = none then [Diag.noHeaderNoData]
    else []
  (r.2.1, r.2.2 ++ finalDiags)

/-! ### The driver (`compute_for_file` and `main`, lines 140–207) -/

/-- One output record (lines 144–151): `seconds` is the number of levels
folded into the block and `Leq_value` is the rounded aggregate. -/
structure Result where
  start : ℤ
  stop : ℤ
  seconds : ℕ
  Leq_value : FVal
  unit : String

/-- `round(x, 2)` (line 149).  Mathlib's `round` resolves exact halves
upward while Python rounds them to even; no claim depends on tie cases. -/
noncomputable def round2 : FVal → FVal
  | .fin x => .fin ((round (x * 100) : ℤ) / 100)
  | v => v

/-- `compute_for_file` (lines 140–151) applied to the already-parsed sample
stream of one source. -/
noncomputable def compute_for_file (samples : List (Sample FVal)) : List Result :=
  (groups_of_seconds samples).map fun b =>
    ⟨b.start, b.stop, b.levels.length, round2 (leq b.levels), b.unit⟩

/-- `all_results.sort(key=lambda x: x["start"])` (line 181): Python's
stable sort by the `start` field. -/
noncomputable def sortResults (rs : List Result) : List Result :=
  rs.mergeSort fun a b => decide (a.start ≤ b.start)

/-- The output filter (lines 184–187): keep everything when
`--include-short-periods` is given, else only full 900-sample periods. -/
noncomputable def selectResults (includeShort : Bool) (rs : List Result) :
    List Result :=
  if includeShort then rs
  else rs.filter fun r => decide ((r.seconds : ℤ) = SECONDS_PER_BLOCK)

/-- The accumulation loop of `main` (lines 171–175): concatenate the
results of every source of the folder, in enumeration order. -/
noncomputable def allResults (files : List (List (Sample FVal))) : List Result :=
  (files.map compute_for_file).flatten

/-- `main`'s result pipeline (lines 171–187): accumulate, sort by `start`,
then filter according to the `--include-short-periods` flag. -/
noncomputable def results_to_print (includeShort : Bool)
    (files : List (List (Sample FVal))) : List Result :=
  selectResults includeShort (sortResults (allResults files))

/-- Concatenation of the `levels` lists of a block list, in order. -/
def blocksLevels {α : Type} : List (Block α) → List α
  | [] => []
  | b :: bs => b.levels ++ blocksLevels bs

/-- Strict emission order between two blocks: later blocks start strictly
later, at or after the earlier block's end, and are themselves non-empty
time intervals.  (The last conjunct makes the relation transitive.) -/
def blockOrdered {α : Type} (a b : Block α) : Prop :=
  a.start < b.start ∧ a.stop ≤ b.start ∧ b.start < b.stop

/-! ### Basic lemmas about the partitioner loop -/

@[simp]
lemma blocksLevels_nil {α : Type} : blocksLevels ([] : List (Block α)) = [] := rfl

@[simp]
lemma blocksLevels_cons {α : Type} (b : Block α) (bs : List (Block α)) :
    blocksLevels (b :: bs) = b.levels ++ blocksLevels bs := rfl

@[simp]
lemma blocksLevels_append {α : Type} (bs cs : List (Block α)) :
    blocksLevels (bs ++ cs) = blocksLevels bs ++ blocksLevels cs := by
  induction bs with
  | nil => rfl
  | cons b bs ih => simp [ih]

lemma mem_blocksLevels_of_mem {α : Type} {bs : List (Block α)} {b : Block α}
    {l : α} (hb : b ∈ bs) (hl : l ∈ b.levels) : l ∈ blocksLevels bs := by
  induction bs with
  | nil => cases hb
  | cons c cs ih =>
    rcases List.mem_cons.mp hb with h | h
    · subst h; exact List.mem_append_left _ hl
    · exact List.mem_append_right _ (ih h)

lemma SECONDS_PER_BLOCK_pos : 0 < SECONDS_PER_BLOCK := by
  simp [SECONDS_PER_BLOCK]

/-- Characterization of the window-closing loop when the fuel bound is
sufficient: either the sample is still inside the current window and the
loop is a no-op, or the loop emits the current window (if non-empty) and
advances to the unique window of the grid containing `ts`. -/
lemma closeWindows_spec {α : Type} :
    ∀ (fuel : ℕ) (ts start bEnd : ℤ) (levels : List α) (u : String),
      (ts + 1 - bEnd).toNat ≤ fuel →
      (ts < bEnd ∧ closeWindows fuel ts start bEnd levels u = ([], start, bEnd, levels)) ∨
      (bEnd ≤ ts ∧ ∃ k : ℕ,
        bEnd + SECONDS_PER_BLOCK * k ≤ ts ∧
        ts < bEnd + SECONDS_PER_BLOCK * k + SECONDS_PER_BLOCK ∧
        closeWindows fuel ts start bEnd levels u =
          ((if levels.isEmpty then [] else [⟨start, bEnd, levels, u⟩]),
            bEnd + SECONDS_PER_BLOCK * k,
            bEnd + SECONDS_PER_BLOCK * k + SECONDS_PER_BLOCK, [])) := by
  intro fuel
  induction fuel with
  | zero =>
    intro ts start bEnd levels u hf
    left
    refine ⟨by omega, rfl⟩
  | succ fuel ih =>
    intro ts start bEnd levels u hf
    by_cases hb : bEnd ≤ ts
    · right
      refine ⟨hb, ?_⟩
      have hf' : (ts + 1 - (bEnd + SECONDS_PER_BLOCK)).toNat ≤ fuel := by
        simp only [SECONDS_PER_BLOCK] at *; omega
      rcases ih ts bEnd (bEnd + SECONDS_PER_BLOCK) [] u hf'
        with ⟨hlt, heq⟩ | ⟨hge, k, hk1, hk2, heq⟩
      · refine ⟨0, by omega, by simp only [SECONDS_PER_BLOCK] at *; omega, ?_⟩
        simp [closeWindows, hb, heq]
      · have harith : bEnd + SECONDS_PER_BLOCK + SECONDS_PER_BLOCK * (k : ℤ)
            = bEnd + SECONDS_PER_BLOCK * ((k : ℤ) + 1) := by ring
        refine ⟨k + 1, ?_, ?_, ?_⟩
        · push_cast
          omega
        · push_cast
          omega
        · simp only [closeWindows, if_pos hb, heq, List.isEmpty_nil,
            List.append_nil]
          push_cast
          rw [harith]
          simp
    · left
      refine ⟨by omega, ?_⟩
      simp [closeWindows, hb]

/-- A sample strictly inside the current window only appends its level. -/
lemma groupsAux_cons_lt {α : Type} (s : Sample α) (rest : List (Sample α))
    (start bEnd : ℤ) (levels : List α) (u : String) (h : s.ts < bEnd) :
    groupsAux (s :: rest) start bEnd levels u
      = groupsAux rest start bEnd (levels ++ [s.level]) u := by
  rcases closeWindows_spec (s.ts + 1 - bEnd).toNat s.ts start bEnd levels u le_rfl
    with ⟨hlt, heq⟩ | ⟨hge, _⟩
  · simp [groupsAux, heq]
  · omega

/-- A sample at or beyond the current window end first closes out windows:
the current window is emitted if non-empty, the state advances to the
grid window containing the sample, and the level joins that window. -/
lemma groupsAux_cons_ge {α : Type} (s : Sample α) (rest : List (Sample α))
    (start bEnd : ℤ) (levels : List α) (u : String) (h : bEnd ≤ s.ts) :
    ∃ k : ℕ,
      bEnd + SECONDS_PER_BLOCK * k ≤ s.ts ∧
      s.ts < bEnd + SECONDS_PER_BLOCK * k + SECONDS_PER_BLOCK ∧
      groupsAux (s :: rest) start bEnd levels u
        = (if levels.isEmpty then [] else [⟨start, bEnd, levels, u⟩]) ++
          groupsAux rest (bEnd + SECONDS_PER_BLOCK * k)
            (bEnd + SECONDS_PER_BLOCK * k + SECONDS_PER_BLOCK) [s.level] u := by
  rcases closeWindows_spec (s.ts + 1 - bEnd).toNat s.ts start bEnd levels u le_rfl
    with ⟨hlt, _⟩ | ⟨hge, k, hk1, hk2, heq⟩
  · omega
  · exact ⟨k, hk1, hk2, by simp [groupsAux, heq]⟩

/-- The partitioner never stops emitting once it holds levels: a call with a
non-empty pending collection produces at least one block. -/
lemma groupsAux_ne_nil {α : Type} :
    ∀ (samples : List (Sample α)) (start bEnd : ℤ) (levels : List α)
      (u : String), levels ≠ [] →
      groupsAux samples start bEnd levels u ≠ [] := by
  intro samples
  induction samples with
  | nil =>
    intro start bEnd levels u hne
    simp [groupsAux, hne]
  | cons s rest ih =>
    intro start bEnd levels u hne
    simp only [groupsAux]
    intro hcontra
    rcases List.append_eq_nil.mp hcontra with ⟨_, h2⟩
    exact ih _ _ _ u (by simp) h2

/-- Levels are conserved by the partitioner loop: the emitted blocks carry
exactly the pending levels followed by the levels of the remaining samples,
in order. -/
lemma groupsAux_levels {α : Type} :
    ∀ (samples : List (Sample α)) (start bEnd : ℤ) (levels : List α)
      (u : String),
      blocksLevels (groupsAux samples start bEnd levels u)
        = levels ++ samples.map Sample.level := by
  intro samples
  induction samples with
  | nil =>
    intro start bEnd levels u
    by_cases hne : levels = []
    · simp [groupsAux, hne]
    · simp [groupsAux, hne]
  | cons s rest ih =>
    intro start bEnd levels u
    by_cases hlt : s.ts < bEnd
    · rw [groupsAux_cons_lt s rest start bEnd levels u hlt, ih]
      simp
    · obtain ⟨k, _, _, heq⟩ :=
        groupsAux_cons_ge s rest start bEnd levels u (by omega)
      rw [heq]
      by_cases hne : levels = []
      · simp [hne, ih]
      · simp [hne, ih]

/-- No emitted block has an empty `levels` list. -/
lemma groupsAux_no_empty {α : Type} :
    ∀ (samples : List (Sample α)) (start bEnd : ℤ) (levels : List α)
      (u : String), ∀ b ∈ groupsAux samples start bEnd levels u,
      b.levels ≠ [] := by
  intro samples
  induction samples with
  | nil =>
    intro start bEnd levels u b hb
    by_cases hne : levels.isEmpty
    · simp [groupsAux, hne] at hb
    · simp [groupsAux, hne] at hb
      subst hb
      simpa [List.isEmpty_iff] using hne
  | cons s rest ih =>
    intro start bEnd levels u b hb
    by_cases hlt : s.ts < bEnd
    · rw [groupsAux_cons_lt s rest start bEnd levels u hlt] at hb
      exact ih start bEnd _ u b hb
    · obtain ⟨k, _, _, heq⟩ :=
        groupsAux_cons_ge s rest start bEnd levels u (by omega)
      rw [heq] at hb
      rcases List.mem_append.mp hb with h | h
      · by_cases hne : levels.isEmpty
        · simp [hne] at h
        · simp [hne] at h
          subst h
          simpa [List.isEmpty_iff] using hne
      · exact ih _ _ _ u b h

/-- Every block start lies on the 900-second grid anchored at the current
window start. -/
lemma groupsAux_grid {α : Type} :
    ∀ (samples : List (Sample α)) (start : ℤ) (levels : List α) (u : String),
      ∀ b ∈ groupsAux samples start (start + SECONDS_PER_BLOCK) levels u,
        ∃ k : ℕ, b.start = start + SECONDS_PER_BLOCK * k := by
  intro samples
  induction samples with
  | nil =>
    intro start levels u b hb
    by_cases hne : levels.isEmpty
    · simp [groupsAux, hne] at hb
    · simp [groupsAux, hne] at hb
      exact ⟨0, by simp [hb]⟩
  | cons s rest ih =>
    intro start levels u b hb
    by_cases hlt : s.ts < start + SECONDS_PER_BLOCK
    · rw [groupsAux_cons_lt s rest start _ levels u hlt] at hb
      exact ih start _ u b hb
    · obtain ⟨k, _, _, heq⟩ :=
        groupsAux_cons_ge s rest start (start + SECONDS_PER_BLOCK) levels u
          (by omega)
      rw [heq] at hb
      rcases List.mem_append.mp hb with h | h
      · by_cases hne : levels.isEmpty
        · simp [hne] at h
        · simp [hne] at h
          exact ⟨0, by simp [h]⟩
      · have hstart : start + SECONDS_PER_BLOCK + SECONDS_PER_BLOCK * (k : ℤ)
            = start + SECONDS_PER_BLOCK * ((k : ℤ) + 1) := by ring
        rw [hstart] at h
        obtain ⟨j, hj⟩ := ih (start + SECONDS_PER_BLOCK * ((k : ℤ) + 1))
          [s.level] u b h
        exact ⟨k + 1 + j, by rw [hj]; push_cast; ring⟩

/-- The emitted blocks are chained in strict time order, all starting at or
after the current window start, each a non-empty interval. -/
lemma groupsAux_sorted {α : Type} :
    ∀ (samples : List (Sample α)) (start : ℤ) (levels : List α) (u : String),
      List.Chain' blockOrdered
        (groupsAux samples start (start + SECONDS_PER_BLOCK) levels u) ∧
      ∀ b ∈ groupsAux samples start (start + SECONDS_PER_BLOCK) levels u,
        start ≤ b.start ∧ b.start < b.stop := by
  intro samples
  induction samples with
  | nil =>
    intro start levels u
    by_cases hne : levels.isEmpty
    · simp [groupsAux, hne]
    · refine ⟨by simp [groupsAux, hne], ?_⟩
      intro b hb
      simp [groupsAux, hne] at hb
      subst hb
      have h1 : levels ≠ [] := by simpa [List.isEmpty_iff] using hne
      have h2 : 0 < levels.length := List.length_pos.mpr h1
      refine ⟨le_refl _, ?_⟩
      simp only
      omega
  | cons s rest ih =>
    intro start levels u
    by_cases hlt : s.ts < start + SECONDS_PER_BLOCK
    · rw [groupsAux_cons_lt s rest start _ levels u hlt]
      exact ih start _ u
    · obtain ⟨k, _, _, heq⟩ :=
        groupsAux_cons_ge s rest start (start + SECONDS_PER_BLOCK) levels u
          (by omega)
      rw [heq]
      have hstart : start + SECONDS_PER_BLOCK + SECONDS_PER_BLOCK * (k : ℤ)
          = start + SECONDS_PER_BLOCK * ((k : ℤ) + 1) := by ring
      rw [hstart]
      obtain ⟨ihc, ihb⟩ := ih (start + SECONDS_PER_BLOCK * ((k : ℤ) + 1))
        [s.level] u
      have hkpos : SECONDS_PER_BLOCK ≤ SECONDS_PER_BLOCK * ((k : ℤ) + 1) := by
        simp only [SECONDS_PER_BLOCK]
        omega
      by_cases hne : levels.isEmpty
      · simp only [hne, if_pos, List.nil_append]
        refine ⟨ihc, ?_⟩
        intro b hb
        obtain ⟨hb1, hb2⟩ := ihb b hb
        refine ⟨?_, hb2⟩
        have := SECONDS_PER_BLOCK_pos
        omega
      · simp only [hne, if_neg, Bool.false_eq_true, not_false_iff,
          List.singleton_append]
        constructor
        · refine List.chain'_cons'.mpr ⟨?_, ihc⟩
          intro y hy
          obtain ⟨hy1, hy2⟩ := ihb y (List.mem_of_mem_head? hy)
          refine ⟨?_, ?_, hy2⟩
          · simp only
            omega
          · simp only
            omega
        · intro b hb
          rcases List.mem_cons.mp hb with h | h
          · subst h
            have := SECONDS_PER_BLOCK_pos
            exact ⟨le_refl _, by simp only; omega⟩
          · obtain ⟨hb1, hb2⟩ := ihb b h
            refine ⟨?_, hb2⟩
            have := SECONDS_PER_BLOCK_pos
            omega

/-- Under consecutive 1-second timestamps continuing the pending levels,
every block emitted before the final flush holds exactly one full window:
900 levels spanning exactly `SECONDS_PER_BLOCK` seconds. -/
lemma groupsAux_consec {α : Type} :
    ∀ (samples : List (Sample α)) (start : ℤ) (levels : List α) (u : String),
      levels ≠ [] → (levels.length : ℤ) ≤ SECONDS_PER_BLOCK →
      (∀ s₀ ∈ samples.head?, s₀.ts = start + levels.length) →
      List.Chain' (fun a b => b.ts = a.ts + 1) samples →
      ∀ b ∈ (groupsAux samples start (start + SECONDS_PER_BLOCK)
          levels u).dropLast,
        (b.levels.length : ℤ) = SECONDS_PER_BLOCK ∧
        b.stop = b.start + SECONDS_PER_BLOCK := by
  intro samples
  induction samples with
  | nil =>
    intro start levels u hne _ _ _ b hb
    have : ¬levels.isEmpty := by simpa [List.isEmpty_iff] using hne
    simp [groupsAux, this] at hb
  | cons s rest ih =>
    intro start levels u hne hlen hhead hchain b hb
    have hts : s.ts = start + levels.length := hhead s rfl
    obtain ⟨hrel, hchain'⟩ := List.chain'_cons'.mp hchain
    by_cases hfull : (levels.length : ℤ) < SECONDS_PER_BLOCK
    · rw [groupsAux_cons_lt s rest start _ levels u (by omega)] at hb
      refine ih start (levels ++ [s.level]) u (by simp) (by simp; omega)
        ?_ hchain' b hb
      intro r hr
      have := hrel r hr
      simp only [List.length_append, List.length_singleton]
      push_cast
      omega
    · have hts' : s.ts = start + SECONDS_PER_BLOCK := by omega
      obtain ⟨k, hk1, hk2, heq⟩ := groupsAux_cons_ge s rest start
        (start + SECONDS_PER_BLOCK) levels u (by omega)
      have hk0 : k = 0 := by
        simp only [SECONDS_PER_BLOCK] at hk1 hts' ⊢
        omega
      subst hk0
      simp only [Nat.cast_zero, mul_zero, add_zero] at heq
      have hneb : ¬levels.isEmpty := by simpa [List.isEmpty_iff] using hne
      rw [heq, if_neg (by simp [hneb])] at hb
      have hrec : groupsAux rest (start + SECONDS_PER_BLOCK)
          (start + SECONDS_PER_BLOCK + SECONDS_PER_BLOCK) [s.level] u ≠ [] :=
        groupsAux_ne_nil rest _ _ _ u (by simp)
      rw [List.singleton_append, List.dropLast_cons_of_ne_nil hrec] at hb
      rcases List.mem_cons.mp hb with h | h
      · subst h
        refine ⟨by simp only; omega, by simp only⟩
      · refine ih (start + SECONDS_PER_BLOCK) [s.level] u (by simp)
          (by norm_num [SECONDS_PER_BLOCK]) ?_ hchain' b h
        intro r hr
        have := hrel r hr
        simp only [List.length_singleton]
        push_cast
        omega

lemma exists_mem_of_mem_blocksLevels {α : Type} :
    ∀ {bs : List (Block α)} {l : α}, l ∈ blocksLevels bs →
      ∃ b ∈ bs, l ∈ b.levels := by
  intro bs
  induction bs with
  | nil =>
    intro l h
    simp [blocksLevels] at h
  | cons c cs ih =>
    intro l h
    rw [blocksLevels_cons] at h
    rcases List.mem_append.mp h with h1 | h1
    · exact ⟨c, List.mem_cons_self _ _, h1⟩
    · obtain ⟨b, hb, hl⟩ := ih h1
      exact ⟨b, List.mem_cons_of_mem _ hb, hl⟩

/-- Window membership invariant: with the pending levels collected from
samples inside the current window, every level of every emitted block comes
from a sample whose timestamp lies in the half-open window
`[b.start, b.start + SECONDS_PER_BLOCK)`.  Levels are assumed pairwise
distinct so that a level value identifies its sample. -/
lemma groupsAux_mem_bounds {α : Type} :
    ∀ (samples pending : List (Sample α)) (start : ℤ) (u : String),
      (∀ p ∈ pending, start ≤ p.ts ∧ p.ts < start + SECONDS_PER_BLOCK) →
      (∀ s ∈ samples, start ≤ s.ts) →
      List.Chain' (· ≤ ·) ((pending ++ samples).map Sample.ts) →
      ((pending ++ samples).map Sample.level).Nodup →
      ∀ b ∈ groupsAux samples start (start + SECONDS_PER_BLOCK)
          (pending.map Sample.level) u,
        ∀ q ∈ pending ++ samples, q.level ∈ b.levels →
          b.start ≤ q.ts ∧ q.ts < b.start + SECONDS_PER_BLOCK := by
  intro samples
  induction samples with
  | nil =>
    intro pending start u hpend _ _ _ b hb q hq _
    rcases List.eq_nil_or_concat pending with hp | _
    · subst hp
      simp [groupsAux] at hb
    · have hpe : ¬(pending.map Sample.level).isEmpty := by
        simp only [List.isEmpty_iff, List.map_eq_nil_iff]
        rintro rfl
        simp at hq
      simp only [groupsAux, hpe, if_neg, Bool.false_eq_true,
        not_false_iff, List.mem_singleton] at hb
      subst hb
      simpa using hpend q (by simpa using hq)
  | cons s rest ih =>
    intro pending start u hpend hstart hchain hnodup b hb q hq hql
    have hts_s : start ≤ s.ts := hstart s (List.mem_cons_self _ _)
    by_cases hlt : s.ts < start + SECONDS_PER_BLOCK
    · rw [groupsAux_cons_lt s rest start _ (pending.map Sample.level) u hlt,
        show pending.map Sample.level ++ [s.level]
          = (pending ++ [s]).map Sample.level by simp] at hb
      have hassoc : (pending ++ [s]) ++ rest = pending ++ s :: rest := by
        simp
      refine ih (pending ++ [s]) start u ?_ ?_ (by rw [hassoc]; exact hchain)
        (by rw [hassoc]; exact hnodup) b hb q (by rw [hassoc]; exact hq) hql
      · intro p hp
        rcases List.mem_append.mp hp with h | h
        · exact hpend p h
        · rw [List.mem_singleton] at h
          subst h
          exact ⟨hts_s, hlt⟩
      · intro r hr
        exact hstart r (List.mem_cons_of_mem _ hr)
    · obtain ⟨k, hk1, hk2, heq⟩ := groupsAux_cons_ge s rest start
        (start + SECONDS_PER_BLOCK) (pending.map Sample.level) u (by omega)
      rw [heq] at hb
      have hmap : (pending ++ s :: rest).map Sample.level
          = pending.map Sample.level ++ (s :: rest).map Sample.level := by
        simp
      have hnd := hnodup
      rw [hmap] at hnd
      have hdisj := List.disjoint_of_nodup_append hnd
      have hchain2 : List.Chain' (· ≤ ·) ((s :: rest).map Sample.ts) := by
        have := hchain
        rw [show (pending ++ s :: rest).map Sample.ts
          = pending.map Sample.ts ++ (s :: rest).map Sample.ts by simp] at this
        exact ((List.chain'_append.mp this).2).1
      have hrest_ts : ∀ r ∈ rest, s.ts ≤ r.ts := by
        have hpw := List.chain'_iff_pairwise.mp hchain2
        have := List.pairwise_map.mp hpw
        exact (List.pairwise_cons.mp this).1
      rcases List.mem_append.mp hb with hbe | hbr
      · have hpne : pending ≠ [] := by
          rintro rfl
          simp at hbe
        have hpe : ¬(pending.map Sample.level).isEmpty := by
          simp [List.isEmpty_iff, hpne]
        rw [if_neg (by simp [hpe]), List.mem_singleton] at hbe
        subst hbe
        have hqlm : q.level ∈ pending.map Sample.level := hql
        have hqp : q ∈ pending := by
          rcases List.mem_append.mp hq with h | h
          · exact h
          · exact (hdisj hqlm (List.mem_map_of_mem Sample.level h)).elim
        simpa using hpend q hqp
      · have hIH := ih [s] (start + SECONDS_PER_BLOCK + SECONDS_PER_BLOCK * k)
          u ?_ ?_ ?_ ?_ b (by simpa using hbr)
        · rcases List.mem_append.mp hq with h | h
          · exfalso
            have hlv : q.level ∈ blocksLevels (groupsAux rest
                (start + SECONDS_PER_BLOCK + SECONDS_PER_BLOCK * k)
                (start + SECONDS_PER_BLOCK + SECONDS_PER_BLOCK * k
                  + SECONDS_PER_BLOCK) [s.level] u) :=
              mem_blocksLevels_of_mem hbr hql
            rw [groupsAux_levels] at hlv
            have : q.level ∈ (s :: rest).map Sample.level := by
              simpa using hlv
            exact hdisj (List.mem_map_of_mem _ h) this
          · exact hIH q (by simpa using h) hql
        · intro p hp
          rw [List.mem_singleton] at hp
          subst hp
          exact ⟨hk1, hk2⟩
        · intro r hr
          exact le_trans hk1 (hrest_ts r hr)
        · simpa using hchain2
        · simpa using (List.Nodup.of_append_right hnd)

/-! ### Lemmas about the parser -/

/-- Once the unit is pinned it stays pinned, and every sample yielded from
then on carries the pinned unit. -/
lemma parseRow_pinned_some {α : Type} (pts : String → String → Option ℤ)
    (plv : String → Option α) (st : ParseState) (row : List String)
    (pu : String) (h : st.pinned = some pu) :
    (parseRow pts plv st row).1.pinned = some pu ∧
    ∀ s ∈ (parseRow pts plv st row).2.1, s.unit = pu := by
  unfold parseRow
  split
  · exact ⟨h, by simp⟩
  · split
    · exact ⟨h, by simp⟩
    · split
      · split
        · split
          · simp_all
          · split
            · refine ⟨h, ?_⟩
              simp_all
            · exact ⟨h, by simp⟩
        · exact ⟨h, by simp⟩
      · exact ⟨h, by simp⟩

/-- With the unit pinned, the whole rest of the stream yields only samples
carrying that unit. -/
lemma parseRows_pinned_some {α : Type} (pts : String → String → Option ℤ)
    (plv : String → Option α) :
    ∀ (rows : List (List String)) (st : ParseState) (pu : String),
      st.pinned = some pu →
      (parseRows pts plv st rows).1.pinned = some pu ∧
      ∀ s ∈ (parseRows pts plv st rows).2.1, s.unit = pu := by
  intro rows
  induction rows with
  | nil =>
    intro st pu h
    exact ⟨h, by simp [parseRows]⟩
  | cons row rest ih =>
    intro st pu h
    obtain ⟨h1, h2⟩ := parseRow_pinned_some pts plv st row pu h
    obtain ⟨h3, h4⟩ := ih (parseRow pts plv st row).1 pu h1
    refine ⟨h3, ?_⟩
    intro s hs
    simp only [parseRows] at hs
    rcases List.mem_append.mp hs with hh | hh
    · exact h2 s hh
    · exact h4 s hh

/-- Before the unit is pinned, a row either yields nothing and leaves the
pin unset, or yields exactly one sample and pins its unit. -/
lemma parseRow_pinned_none {α : Type} (pts : String → String → Option ℤ)
    (plv : String → Option α) (st : ParseState) (row : List String)
    (h : st.pinned = none) :
    ((parseRow pts plv st row).1.pinned = none ∧
      (parseRow pts plv st row).2.1 = []) ∨
    (∃ s : Sample α, (parseRow pts plv st row).2.1 = [s] ∧
      (parseRow pts plv st row).1.pinned = some s.unit) := by
  unfold parseRow
  split
  · exact Or.inl ⟨h, rfl⟩
  · split
    · exact Or.inl ⟨h, rfl⟩
    · split
      · split
        · split
          · right
            exact ⟨_, rfl, rfl⟩
          · simp_all
        · exact Or.inl ⟨h, rfl⟩
      · exact Or.inl ⟨h, rfl⟩

/-- All samples of one source share one unit. -/
lemma parseRows_units_eq {α : Type} (pts : String → String → Option ℤ)
    (plv : String → Option α) :
    ∀ (rows : List (List String)) (st : ParseState),
      st.pinned = none →
      ∀ s ∈ (parseRows pts plv st rows).2.1,
        ∀ s' ∈ (parseRows pts plv st rows).2.1, s.unit = s'.unit := by
  intro rows
  induction rows with
  | nil =>
    intro st h s hs
    simp [parseRows] at hs
  | cons row rest ih =>
    intro st h s hs s' hs'
    simp only [parseRows] at hs hs'
    rcases parseRow_pinned_none pts plv st row h with ⟨h1, h2⟩ | ⟨s₀, h2, h1⟩
    · rw [h2, List.nil_append] at hs hs'
      exact ih (parseRow pts plv st row).1 h1 s hs s' hs'
    · obtain ⟨_, hall⟩ := parseRows_pinned_some pts plv rest
        (parseRow pts plv st row).1 s₀.unit h1
      rw [h2] at hs hs'
      have hu : ∀ x ∈ s₀ :: (parseRows pts plv (parseRow pts plv st row).1
          rest).2.1, x.unit = s₀.unit := by
        intro x hx
        rcases List.mem_cons.mp hx with hx | hx
        · rw [hx]
        · exact hall x hx
      rw [hu s (by simpa using hs), hu s' (by simpa using hs')]

/-- The final pin is unset exactly when the source yielded no samples. -/
lemma parseRows_pinned_none_iff {α : Type} (pts : String → String → Option ℤ)
    (plv : String → Option α) :
    ∀ (rows : List (List String)) (st : ParseState),
      st.pinned = none →
      ((parseRows pts plv st rows).1.pinned = none ↔
        (parseRows pts plv st rows).2.1 = []) := by
  intro rows
  induction rows with
  | nil =>
    intro st h
    simp [parseRows, h]
  | cons row rest ih =>
    intro st h
    simp only [parseRows]
    rcases parseRow_pinned_none pts plv st row h with ⟨h1, h2⟩ | ⟨s₀, h2, h1⟩
    · rw [h2, List.nil_append]
      exact ih (parseRow pts plv st row).1 h1
    · obtain ⟨hpin, _⟩ := parseRows_pinned_some pts plv rest
        (parseRow pts plv st row).1 s₀.unit h1
      rw [h2, hpin]
      simp

/-- A non-header row never sets the header flag. -/
lemma parseRow_headerSeen {α : Type} (pts : String → String → Option ℤ)
    (plv : String → Option α) (st : ParseState) (row : List String)
    (h : isHeaderRow row = false) :
    (parseRow pts plv st row).1.headerSeen = st.headerSeen := by
  unfold parseRow
  split
  · rename_i hcond
    rw [h] at hcond
    simp at hcond
  · split
    · rfl
    · split
      · split
        · split
          · rfl
          · split
            · rfl
            · rfl
        · rfl
      · rfl

/-- If no row of the source is a header row, the header flag stays unset. -/
lemma parseRows_headerSeen {α : Type} (pts : String → String → Option ℤ)
    (plv : String → Option α) :
    ∀ (rows : List (List String)) (st : ParseState),
      (∀ row ∈ rows, isHeaderRow row = false) →
      (parseRows pts plv st rows).1.headerSeen = st.headerSeen := by
  intro rows
  induction rows with
  | nil =>
    intro st _
    rfl
  | cons row rest ih =>
    intro st hall
    simp only [parseRows]
    rw [ih (parseRow pts plv st row).1
      (fun r hr => hall r (List.mem_cons_of_mem _ hr))]
    exact parseRow_headerSeen pts plv st row (hall row (List.mem_cons_self _ _))

/-- The row loop itself only ever emits row-level diagnostics; the two
end-of-source diagnostics come from the epilogue alone. -/
lemma parseRow_diags {α : Type} (pts : String → String → Option ℤ)
    (plv : String → Option α) (st : ParseState) (row : List String) :
    ∀ d ∈ (parseRow pts plv st row).2.2,
      d = Diag.malformedRow ∨ d = Diag.invalidData ∨ d = Diag.unitMismatch := by
  unfold parseRow
  split
  · simp
  · split
    · split
      · simp
      · simp
    · split
      · split
        · split
          · simp
          · split
            · simp
            · simp
        · simp
      · simp

/-- Diagnostics accumulated by the row loop, across all rows. -/
lemma parseRows_diags {α : Type} (pts : String → String → Option ℤ)
    (plv : String → Option α) :
    ∀ (rows : List (List String)) (st : ParseState),
      ∀ d ∈ (parseRows pts plv st rows).2.2,
        d = Diag.malformedRow ∨ d = Diag.invalidData ∨ d = Diag.unitMismatch := by
  intro rows
  induction rows with
  | nil =>
    intro st d hd
    simp [parseRows] at hd
  | cons row rest ih =>
    intro st d hd
    simp only [parseRows] at hd
    rcases List.mem_append.mp hd with h | h
    · exact parseRow_diags pts plv st row d h
    · exact ih (parseRow pts plv st row).1 d h

/-! ### Lemmas about the aggregator -/

lemma fadd_fin_fin (a b : ℝ) : fadd (.fin a) (.fin b) = .fin (a + b) := rfl

lemma foldl_fadd_fin_replicate :
    ∀ (n : ℕ) (a E : ℝ),
      List.foldl fadd (FVal.fin a) (List.replicate n (FVal.fin E))
        = FVal.fin (a + n * E) := by
  intro n
  induction n with
  | zero =>
    intro a E
    simp
  | succ m ih =>
    intro a E
    rw [List.replicate_succ, List.foldl_cons, fadd_fin_fin, ih]
    refine congrArg FVal.fin ?_
    push_cast
    ring

lemma fsum_replicate_fin (n : ℕ) (E : ℝ) :
    fsum (List.replicate n (FVal.fin E)) = FVal.fin (n * E) := by
  rw [fsum, foldl_fadd_fin_replicate]
  rw [zero_add]

/-! ### Claim theorems -/

/-- C1: for every one-source input sample sequence with strictly increasing
timestamps, concatenating the levels lists of all blocks emitted by
`groups_of_seconds`, in emission order, reproduces exactly the input level
sequence — no level is dropped, duplicated, or reordered. -/
theorem partitioner_concat_levels {α : Type} (samples : List (Sample α))
    (hsort : List.Chain' (· < ·) (samples.map Sample.ts)) :
    blocksLevels (groups_of_seconds samples) = samples.map Sample.level := by
  cases samples with
  | nil => rfl
  | cons s rest =>
    simp [groups_of_seconds, groupsAux_levels]

/-- Witness for C1 at a concrete gapped two-sample input. -/
theorem partitioner_concat_levels_witness :
    blocksLevels (groups_of_seconds [⟨0, (1 : ℤ), "dBA"⟩, ⟨950, 2, "dBA"⟩])
        = [1, 2] ∧ (0 : ℤ) < 950 :=
  ⟨partitioner_concat_levels [⟨0, (1 : ℤ), "dBA"⟩, ⟨950, 2, "dBA"⟩]
    (by norm_num [List.chain'_cons]), by norm_num⟩

/-- C2 as stated fails on the code: these two samples have strictly
increasing timestamps, yet the first (non-final) emitted block contains a
single level, not 900 — the partitioner emits a partially filled window
when a timestamp gap straddles a window boundary. -/
theorem nonfinal_block_short_counterexample :
    (0 : ℤ) < 1000 ∧
    (groups_of_seconds [⟨0, (1 : ℤ), "u"⟩, ⟨1000, 2, "u"⟩]).dropLast
      = [⟨0, 900, [1], "u"⟩] := by
  constructor
  · norm_num
  · decide

/-- C2 (amended): when the one-source input's timestamps are consecutive
seconds — the 1 Hz sampling the tool expects — every block emitted before
the final one contains exactly 900 levels and spans exactly 900 seconds.
(With gapped timestamps the code can emit shorter non-final blocks; see
the counterexample.) -/
theorem nonfinal_blocks_full {α : Type} (samples : List (Sample α))
    (hconsec : List.Chain' (fun a b => b.ts = a.ts + 1) samples) :
    ∀ b ∈ (groups_of_seconds samples).dropLast,
      (b.levels.length : ℤ) = SECONDS_PER_BLOCK ∧
      b.stop = b.start + SECONDS_PER_BLOCK := by
  cases samples with
  | nil =>
    intro b hb
    simp [groups_of_seconds] at hb
  | cons s rest =>
    obtain ⟨hrel, hchain2⟩ := List.chain'_cons'.mp hconsec
    refine groupsAux_consec rest s.ts [s.level] s.unit (by simp)
      (by norm_num [SECONDS_PER_BLOCK]) ?_ hchain2
    intro r hr
    have := hrel r hr
    simp only [List.length_singleton]
    push_cast
    omega

/-- Witness for C2 (amended) at a concrete consecutive-timestamp input. -/
theorem nonfinal_blocks_full_witness :
    List.Chain' (fun a b => b.ts = a.ts + 1)
      ([⟨0, (5 : ℤ), "u"⟩, ⟨1, 6, "u"⟩] : List (Sample ℤ)) ∧
    ∀ b ∈ (groups_of_seconds
        ([⟨0, (5 : ℤ), "u"⟩, ⟨1, 6, "u"⟩] : List (Sample ℤ))).dropLast,
      (b.levels.length : ℤ) = SECONDS_PER_BLOCK ∧
      b.stop = b.start + SECONDS_PER_BLOCK :=
  ⟨by norm_num [List.chain'_cons],
    nonfinal_blocks_full _ (by norm_num [List.chain'_cons])⟩

/-- C3: `leq` of the empty list is `nan`; for every non-empty level list
whose summed linear energy is exactly zero, `leq` returns `-inf` when at
least one input level is `-inf` and `nan` otherwise. -/
theorem leq_zero_energy :
    leq [] = FVal.nan ∧
    ∀ levels : List FVal, levels ≠ [] →
      fsum (levels.map fexp10) = FVal.fin 0 →
      leq levels
        = if levels.any FVal.isNegInf then FVal.neginf else FVal.nan := by
  refine ⟨rfl, ?_⟩
  intro levels hne hsum
  obtain ⟨l, ls, rfl⟩ := List.exists_cons_of_ne_nil hne
  simp only [leq]
  rw [if_pos hsum]

/-- Witness for C3 at the concrete input `[-inf]`. -/
theorem leq_zero_energy_witness :
    ([FVal.neginf] ≠ ([] : List FVal)) ∧ leq [FVal.neginf] = FVal.neginf := by
  have h1 : fsum ([FVal.neginf].map fexp10) = FVal.fin 0 := by
    simp [fsum, fexp10, fadd_fin_fin]
  refine ⟨by simp, ?_⟩
  rw [leq_zero_energy.2 [FVal.neginf] (by simp) h1]
  simp [FVal.isNegInf]

/-- C5: the partitioner never emits a block with an empty levels list, and
on the concrete two-sample input with a 2-hour timestamp gap it emits just
the two occupied blocks, none covering the empty windows in between. -/
theorem no_empty_blocks :
    (∀ (α : Type) (samples : List (Sample α)),
      ∀ b ∈ groups_of_seconds samples, b.levels ≠ []) ∧
    groups_of_seconds [⟨0, (50 : ℤ), "dBA"⟩, ⟨7200, 60, "dBA"⟩]
      = [⟨0, 900, [50], "dBA"⟩, ⟨7200, 7201, [60], "dBA"⟩] := by
  constructor
  · intro α samples b hb
    cases samples with
    | nil => simp [groups_of_seconds] at hb
    | cons s rest => exact groupsAux_no_empty rest _ _ _ _ b hb
  · decide

/-- Witness for C5 at a concrete one-sample input. -/
theorem no_empty_blocks_witness : ([50] : List ℤ) ≠ [] :=
  no_empty_blocks.1 ℤ [⟨0, 50, "dBA"⟩] ⟨0, 1, [50], "dBA"⟩ (by decide)

/-- C9: `leq` of a non-empty constant list of finite levels returns that
level exactly (the embedding computes with exact reals, so no floating
rounding is involved). -/
theorem leq_constant_list (n : ℕ) (x : ℝ) (hn : 0 < n) :
    leq (List.replicate n (FVal.fin x)) = FVal.fin x := by
  obtain ⟨m, rfl⟩ : ∃ m, n = m + 1 := ⟨n - 1, by omega⟩
  have hE : (0 : ℝ) < (10 : ℝ) ^ (x / 10) :=
    Real.rpow_pos_of_pos (by norm_num) _
  have hsum : fsum ((List.replicate (m + 1) (FVal.fin x)).map fexp10)
      = FVal.fin ((m + 1 : ℕ) * ((10 : ℝ) ^ (x / 10))) := by
    rw [List.map_replicate]
    exact fsum_replicate_fin (m + 1) _
  have hne : FVal.fin ((m + 1 : ℕ) * ((10 : ℝ) ^ (x / 10))) ≠ FVal.fin 0 := by
    intro hcontra
    have h0 := FVal.fin.inj hcontra
    have hm : (0 : ℝ) < ((m + 1 : ℕ) : ℝ) := by positivity
    nlinarith
  have hcast : ((m + 1 : ℕ) : ℝ) ≠ 0 := by positivity
  rw [List.replicate_succ] at hsum ⊢
  simp only [leq]
  rw [hsum, if_neg hne]
  simp only [flog10mean, List.length_cons, List.length_replicate]
  refine congrArg FVal.fin ?_
  rw [mul_div_cancel_left₀ _ hcast,
    Real.logb_rpow (by norm_num) (by norm_num)]
  ring

/-- Witness for C9 at the concrete input of three copies of 60 dB. -/
theorem leq_constant_list_witness :
    0 < 3 ∧ leq (List.replicate 3 (FVal.fin 60)) = FVal.fin 60 :=
  ⟨by norm_num, leq_constant_list 3 60 (by norm_num)⟩

/-- C4: under non-decreasing timestamps (with pairwise-distinct levels used
as sample tags), every level sits in a block whose window covers its
sample's timestamp half-openly — `b.start ≤ ts < b.start + 900` — so a
sample falling exactly on a window's end is never attributed to the window
closing there, and the block that does receive it starts at or after that
end. -/
theorem sample_window_membership {α : Type} (samples : List (Sample α))
    (hsort : List.Chain' (· ≤ ·) (samples.map Sample.ts))
    (hnodup : (samples.map Sample.level).Nodup) :
    ∀ s ∈ samples,
      (∃ b ∈ groups_of_seconds samples, s.level ∈ b.levels) ∧
      ∀ b ∈ groups_of_seconds samples, s.level ∈ b.levels →
        (b.start ≤ s.ts ∧ s.ts < b.start + SECONDS_PER_BLOCK) ∧
        ∀ c ∈ groups_of_seconds samples,
          s.ts = c.start + SECONDS_PER_BLOCK →
          s.level ∉ c.levels ∧ c.start + SECONDS_PER_BLOCK ≤ b.start := by
  cases samples with
  | nil =>
    intro s hs
    cases hs
  | cons s₀ rest =>
    intro s hs
    have hbounds := groupsAux_mem_bounds rest [s₀] s₀.ts s₀.unit ?_ ?_ ?_ ?_
    case refine_1 =>
      intro p hp
      rw [List.mem_singleton] at hp
      subst hp
      exact ⟨le_refl _, by have := SECONDS_PER_BLOCK_pos; omega⟩
    case refine_2 =>
      have hpw := List.pairwise_map.mp (List.chain'_iff_pairwise.mp hsort)
      exact (List.pairwise_cons.mp hpw).1
    case refine_3 => simpa using hsort
    case refine_4 => simpa using hnodup
    simp only [List.map_cons, List.map_nil, List.singleton_append] at hbounds
    have hex : ∃ b ∈ groups_of_seconds (s₀ :: rest), s.level ∈ b.levels := by
      apply exists_mem_of_mem_blocksLevels
      show s.level ∈ blocksLevels
        (groupsAux rest s₀.ts (s₀.ts + SECONDS_PER_BLOCK) [s₀.level] s₀.unit)
      rw [groupsAux_levels]
      simpa using List.mem_map_of_mem Sample.level hs
    refine ⟨hex, ?_⟩
    intro b hb hbl
    have hbnd := hbounds b hb s hs hbl
    refine ⟨hbnd, ?_⟩
    intro c hc hts
    constructor
    · intro hcl
      have h2 := hbounds c hc s hs hcl
      omega
    · obtain ⟨kb, hkb⟩ := groupsAux_grid rest s₀.ts [s₀.level] s₀.unit b hb
      obtain ⟨kc, hkc⟩ := groupsAux_grid rest s₀.ts [s₀.level] s₀.unit c hc
      obtain ⟨h1, h2⟩ := hbnd
      rw [hkb] at h1 h2 ⊢
      rw [hkc] at hts ⊢
      simp only [SECONDS_PER_BLOCK] at h1 h2 hts ⊢
      omega

/-- Witness for C4: on two samples 900 s apart, the second sample — exactly
at the first window's end — is excluded from the first block and lands in
the block starting at that end. -/
theorem sample_window_membership_witness :
    ((2 : ℤ) ∉ ([1] : List ℤ)) ∧ (0 : ℤ) + SECONDS_PER_BLOCK ≤ 900 := by
  have h := (sample_window_membership
      ([⟨0, (1 : ℤ), "dBA"⟩, ⟨900, 2, "dBA"⟩] : List (Sample ℤ))
      (by norm_num [List.chain'_cons]) (by decide)
      ⟨900, 2, "dBA"⟩ (by decide)).2
      ⟨900, 901, [2], "dBA"⟩ (by decide) (by decide)
  exact h.2 ⟨0, 900, [1], "dBA"⟩ (by decide) (by decide)

/-- C10: for a non-decreasing one-source input, every emitted block starts
on the 900-second grid anchored at the first sample's timestamp, the block
starts are strictly increasing, and the emitted `[start, stop)` intervals
are pairwise disjoint (each earlier block ends at or before the next
begins, and every block is a non-empty interval).  The non-decreasing
hypothesis mirrors the claim; the properties in fact hold without it. -/
theorem blocks_grid_disjoint {α : Type} (s₀ : Sample α)
    (rest : List (Sample α))
    (_hsort : List.Chain' (· ≤ ·) ((s₀ :: rest).map Sample.ts)) :
    (∀ b ∈ groups_of_seconds (s₀ :: rest),
      ∃ k : ℕ, b.start = s₀.ts + SECONDS_PER_BLOCK * k) ∧
    List.Pairwise (fun a b => a.start < b.start ∧ a.stop ≤ b.start)
      (groups_of_seconds (s₀ :: rest)) ∧
    ∀ b ∈ groups_of_seconds (s₀ :: rest), b.start < b.stop := by
  obtain ⟨hchain, hmem⟩ := groupsAux_sorted rest s₀.ts [s₀.level] s₀.unit
  refine ⟨?_, ?_, ?_⟩
  · intro b hb
    exact groupsAux_grid rest s₀.ts [s₀.level] s₀.unit b hb
  · have htrans : ∀ a b c : Block α, blockOrdered a b → blockOrdered b c →
        blockOrdered a c := by
      intro a b c hab hbc
      exact ⟨lt_trans hab.1 hbc.1,
        le_trans hab.2.1 (le_trans (le_of_lt hab.2.2) hbc.2.1), hbc.2.2⟩
    have hpw := (@List.chain'_iff_pairwise (Block α) blockOrdered
      ⟨htrans⟩ _).mp hchain
    exact hpw.imp fun hab => ⟨hab.1, hab.2.1⟩
  · intro b hb
    exact (hmem b hb).2

/-- Witness for C10 on two samples 900 s apart. -/
theorem blocks_grid_disjoint_witness :
    (∃ k : ℕ, (900 : ℤ) = 0 + SECONDS_PER_BLOCK * k) ∧ (0 : ℤ) < 900 := by
  have h := blocks_grid_disjoint (⟨0, (1 : ℤ), "u"⟩ : Sample ℤ)
    [⟨900, 2, "u"⟩] (by norm_num [List.chain'_cons])
  exact ⟨h.1 ⟨900, 901, [2], "u"⟩ (by decide),
    h.2.2 ⟨0, 900, [1], "u"⟩ (by decide)⟩

/-- C6: all samples yielded by the parser from one source carry one
identical unit, pinned by the first successfully parsed data row; and a
later row that parses but whose (stripped) unit differs from the pinned
one yields no sample and emits the unit-mismatch diagnostic. -/
theorem parser_single_unit {α : Type} (pts : String → String → Option ℤ)
    (plv : String → Option α) (rows : List (List String)) :
    (∀ s ∈ (parse_file_samples pts plv rows).1,
      ∀ s' ∈ (parse_file_samples pts plv rows).1, s.unit = s'.unit) ∧
    ∀ (st : ParseState) (pu d t l un : String) (tail : List String)
      (ts : ℤ) (lvl : α),
      st.pinned = some pu → st.headerSeen = true →
      pts (pstrip d) (pstrip t) = some ts → plv (pstrip l) = some lvl →
      pstrip un ≠ pu →
      parseRow pts plv st (d :: t :: l :: un :: tail)
        = (st, [], [Diag.unitMismatch]) := by
  constructor
  · intro s hs s' hs'
    exact parseRows_units_eq pts plv rows ⟨none, false⟩ rfl s hs s' hs'
  · intro st pu d t l un tail ts lvl hpin hheader hts hlvl hne
    unfold parseRow
    rw [hheader]
    simp only [Bool.not_true, Bool.false_and, Bool.false_eq_true, if_false]
    rw [if_neg (by simp)]
    rw [hts, hlvl, hpin]
    simp only [if_neg hne]

/-- Witness for C6: a pinned-dBA state skips a dBC row with a diagnostic,
and a one-row source yields a sample with the pinned unit. -/
theorem parser_single_unit_witness :
    parseRow (fun _ _ => some 0) (fun _ => some (50 : ℤ))
        ⟨some "dBA", true⟩ ["01-01-2020", "00:00:01", "51", "dBC"]
      = (⟨some "dBA", true⟩, [], [Diag.unitMismatch]) ∧
    "dBA" = "dBA" := by
  refine ⟨?_, ?_⟩
  · exact (parser_single_unit (fun _ _ => some 0)
      (fun _ => some (50 : ℤ)) []).2 ⟨some "dBA", true⟩ "dBA"
      "01-01-2020" "00:00:01" "51" "dBC" [] 0 50 rfl rfl rfl rfl (by decide)
  · exact (parser_single_unit (fun _ _ => some 0) (fun _ => some (50 : ℤ))
      [["x", "y", "50", "dBA"]]).1 ⟨0, 50, "dBA"⟩ (by decide)
      ⟨0, 50, "dBA"⟩ (by decide)

/-- C8 as stated fails on the code: a source with no header line but one
valid data row is processed without any diagnostic at all — the
missing-header diagnostic of line 89 fires only when the source also has
no valid data rows. -/
theorem parser_missing_header_counterexample :
    isHeaderRow ["x", "y", "50", "dBA"] = false ∧
    parse_file_samples (fun _ _ => some 0) (fun _ => some (50 : ℤ))
        [["x", "y", "50", "dBA"]]
      = ([⟨0, 50, "dBA"⟩], []) := by
  constructor
  · decide
  · decide

/-- C8 (amended): the absence of a header line is tolerated — the parser
still runs to completion and yields the source's samples — but the
missing-header diagnostic is emitted exactly when the source also yields
no valid samples, not unconditionally. -/
theorem parser_missing_header {α : Type} (pts : String → String → Option ℤ)
    (plv : String → Option α) (rows : List (List String))
    (hnohdr : ∀ row ∈ rows, isHeaderRow row = false) :
    Diag.noHeaderNoData ∈ (parse_file_samples pts plv rows).2 ↔
      (parse_file_samples pts plv rows).1 = [] := by
  have hH := parseRows_headerSeen pts plv rows ⟨none, false⟩ hnohdr
  have hpin := parseRows_pinned_none_iff pts plv rows ⟨none, false⟩ rfl
  simp only [parse_file_samples]
  constructor
  · intro hmem
    rcases List.mem_append.mp hmem with h | h
    · rcases parseRows_diags pts plv rows ⟨none, false⟩ _ h
        with h1 | h1 | h1 <;> cases h1
    · by_cases hp : (parseRows pts plv ⟨none, false⟩ rows).1.pinned = none
      · exact hpin.mp hp
      · rw [if_neg (by simp [hp]), if_neg (by simp [hp])] at h
        cases h
  · intro hempty
    have hp : (parseRows pts plv ⟨none, false⟩ rows).1.pinned = none :=
      hpin.mpr hempty
    apply List.mem_append_right
    rw [if_neg (by simp [hH]), if_pos (by simp [hH, hp])]
    exact List.mem_singleton.mpr rfl

/-- Witness for C8 (amended): a header-less source with one valid row gets
no missing-header diagnostic; the same source with the row made invalid
gets one. -/
theorem parser_missing_header_witness :
    ¬(Diag.noHeaderNoData ∈ (parse_file_samples (fun _ _ => some 0)
        (fun _ => some (50 : ℤ)) [["x", "y", "50", "dBA"]]).2) ∧
    Diag.noHeaderNoData ∈ (parse_file_samples (fun _ _ => some 0)
        (fun _ => (none : Option ℤ)) [["x", "y", "50", "dBA"]]).2 := by
  constructor
  · intro hmem
    have h := (parser_missing_header (fun _ _ => some 0)
      (fun _ => some (50 : ℤ)) [["x", "y", "50", "dBA"]] (by decide)).mp hmem
    revert h
    decide
  · exact (parser_missing_header (fun _ _ => some 0)
      (fun _ => (none : Option ℤ)) [["x", "y", "50", "dBA"]]
      (by decide)).mpr (by decide)

/-- C7: the driver sorts the accumulated results of all sources by `start`
ascending, and the filter step retains exactly the 900-sample periods by
default and everything when short periods are included. -/
theorem driver_sort_filter (files : List (List (Sample FVal))) :
    (∀ flag : Bool, List.Pairwise (fun a b => a.start ≤ b.start)
      (results_to_print flag files)) ∧
    (results_to_print true files).Perm (allResults files) ∧
    (results_to_print false files).Perm
      ((allResults files).filter
        (fun r => decide ((r.seconds : ℤ) = SECONDS_PER_BLOCK))) := by
  have hsorted : List.Pairwise
      (fun a b : Result => decide (a.start ≤ b.start) = true)
      (sortResults (allResults files)) := by
    refine List.sorted_mergeSort ?_ ?_ (allResults files)
    · intro a b c hab hbc
      simp only [decide_eq_true_eq] at *
      exact le_trans hab hbc
    · intro a b
      rcases le_total a.start b.start with h | h <;> simp [h]
  have hsorted2 : List.Pairwise (fun a b : Result => a.start ≤ b.start)
      (sortResults (allResults files)) :=
    hsorted.imp fun h => by simpa using h
  refine ⟨?_, ?_, ?_⟩
  · intro flag
    cases flag with
    | true =>
      simpa [results_to_print, selectResults] using hsorted2
    | false =>
      simp only [results_to_print, selectResults, if_neg]
      exact hsorted2.filter _
  · simp only [results_to_print, selectResults, if_pos]
    exact List.mergeSort_perm (allResults files) _
  · simp only [results_to_print, selectResults, if_neg]
    exact (List.mergeSort_perm (allResults files) _).filter _

end NoiseLeq
